import Mathlib

/-!
Verification of the speaking-test pronunciation scorer of the
elias-web-superlearner repository (src/components/Footer.tsx).

Strings are modelled as lists of characters; the JavaScript regular-expression
character classes are modelled over their ASCII core, and JavaScript number
arithmetic on the small integer quantities involved (match counts, sequence
lengths) is modelled as exact rational arithmetic with Math.round rendered as
the half-up rounding function.
-/

namespace Superlearner

/-! ## Edit distance (getLevenshteinDistance, Footer.tsx lines 120-151)

The source builds a (|b|+1) x (|a|+1) dynamic-programming matrix with
matrix[i][0] = i, matrix[0][j] = j and

  matrix[i][j] = if b[i-1] = a[j-1] then matrix[i-1][j-1]
                 else min (matrix[i-1][j-1]+1) (min (matrix[i][j-1]+1) (matrix[i-1][j]+1))

levD a b i j is the cell matrix[i][j]; levDGo computes row i+1 from row i
(passed as the function prevFn), structurally in j. -/

def levDGo (a b : List Char) (prevFn : Nat → Nat) (i : Nat) : Nat → Nat
  | 0 => i + 1
  | j + 1 =>
    if b.getD i ' ' = a.getD j ' ' then prevFn j
    else min (prevFn j + 1) (min (levDGo a b prevFn i j + 1) (prevFn (j + 1) + 1))

def levD (a b : List Char) : Nat → Nat → Nat
  | 0 => fun j => j
  | i + 1 => levDGo a b (levD a b i) i

/-- The edit-distance function of the source: early returns for an empty
argument, otherwise the bottom-right cell matrix[b.length][a.length]. -/
def getLevenshteinDistance (a b : List Char) : Nat :=
  if a.length = 0 then b.length
  else if b.length = 0 then a.length
  else levD a b b.length a.length

theorem levD_zero (a b : List Char) (j : Nat) : levD a b 0 j = j := rfl

theorem levD_succ_zero (a b : List Char) (i : Nat) : levD a b (i + 1) 0 = i + 1 := rfl

theorem levD_succ_succ (a b : List Char) (i j : Nat) :
    levD a b (i + 1) (j + 1) =
      (if b.getD i ' ' = a.getD j ' ' then levD a b i j
       else min (levD a b i j + 1)
         (min (levD a b (i + 1) j + 1) (levD a b i (j + 1) + 1))) := rfl

/-! ## Reference recursion for the classic edit distance

levRec is the textbook head-recursive form of the Levenshtein distance.  It is
defined with a nested structural recursion (levRecGo is the inner recursion on
the second list, with the outer recursive calls passed in as f) so that it
evaluates inside the kernel. -/

def levRecGo (f : List Char → Nat) (x : Char) (tailLen : Nat) : List Char → Nat
  | [] => tailLen + 1
  | y :: ys =>
    if x = y then f ys
    else min (f ys + 1) (min (levRecGo f x tailLen ys + 1) (f (y :: ys) + 1))

def levRec : List Char → List Char → Nat
  | [], ys => ys.length
  | x :: xs, ys => levRecGo (levRec xs) x xs.length ys

theorem levRec_nil (ys : List Char) : levRec [] ys = ys.length := rfl

theorem levRec_nil_right (xs : List Char) : levRec xs [] = xs.length := by
  cases xs <;> rfl

theorem levRec_cons_cons (x y : Char) (xs ys : List Char) :
    levRec (x :: xs) (y :: ys) =
      (if x = y then levRec xs ys
       else min (levRec xs ys + 1)
         (min (levRec (x :: xs) ys + 1) (levRec xs (y :: ys) + 1))) := rfl

/-- The DP cell matrix[i][j] is the classic distance between the reversed
length-i prefix of b and the reversed length-j prefix of a. -/
theorem levD_eq_levRec (a b : List Char) :
    ∀ i j, i ≤ b.length → j ≤ a.length →
      levD a b i j = levRec ((b.take i).reverse) ((a.take j).reverse) := by
  have htake : ∀ (l : List Char) (n : Nat), n < l.length →
      (l.take (n + 1)).reverse = l.getD n ' ' :: (l.take n).reverse := by
    intro l n hn
    rw [List.take_succ, List.getElem?_eq_getElem hn,
      List.getD_eq_getElem?_getD, List.getElem?_eq_getElem hn]
    simp
  intro i
  induction i with
  | zero =>
    intro j _ hj
    simp [levD_zero, levRec_nil, List.length_take, Nat.min_eq_left hj]
  | succ i ih =>
    intro j hi hj
    induction j with
    | zero =>
      simp [levD_succ_zero, levRec_nil_right, List.length_take,
        Nat.min_eq_left (Nat.le_of_succ_le hi)]
      omega
    | succ j ihj =>
      have hi' : i < b.length := hi
      have hj' : j < a.length := hj
      rw [levD_succ_succ, htake b i hi', htake a j hj', levRec_cons_cons]
      rw [ih j (Nat.le_of_lt hi') (Nat.le_of_lt hj'),
        ih (j + 1) (Nat.le_of_lt hi') hj,
        ihj (Nat.le_of_lt hj')]
      rw [htake b i hi', htake a j hj']

theorem getLevenshteinDistance_eq_levRec (a b : List Char) :
    getLevenshteinDistance a b = levRec b.reverse a.reverse := by
  unfold getLevenshteinDistance
  by_cases ha : a.length = 0
  · have : a = [] := List.length_eq_zero.mp ha
    subst this
    simp [levRec_nil_right]
  · by_cases hb : b.length = 0
    · have : b = [] := List.length_eq_zero.mp hb
      subst this
      simp [ha, levRec_nil]
    · simp only [ha, hb, if_false]
      rw [levD_eq_levRec a b b.length a.length le_rfl le_rfl]
      simp

/-! ## Edit scripts: the specification of minimum edit distance -/

/-- One single-character edit: an insertion, a deletion, or a substitution at
an arbitrary position. -/
inductive EditStep : List Char → List Char → Prop
  | insert (pre post : List Char) (c : Char) : EditStep (pre ++ post) (pre ++ c :: post)
  | delete (pre post : List Char) (c : Char) : EditStep (pre ++ c :: post) (pre ++ post)
  | subst (pre post : List Char) (c c' : Char) : EditStep (pre ++ c :: post) (pre ++ c' :: post)

/-- CostedEdits n xs ys holds when xs can be transformed into ys by a sequence
of exactly n single-character edits. -/
inductive CostedEdits : Nat → List Char → List Char → Prop
  | zero (xs : List Char) : CostedEdits 0 xs xs
  | step {n : Nat} {xs ys zs : List Char} :
      EditStep xs ys → CostedEdits n ys zs → CostedEdits (n + 1) xs zs

theorem EditStep.consLift {u v : List Char} (c : Char) (h : EditStep u v) :
    EditStep (c :: u) (c :: v) := by
  cases h with
  | insert pre post c' => exact EditStep.insert (c :: pre) post c'
  | delete pre post c' => exact EditStep.delete (c :: pre) post c'
  | subst pre post c' c'' => exact EditStep.subst (c :: pre) post c' c''

theorem EditStep.swap {u v : List Char} (h : EditStep u v) : EditStep v u := by
  cases h with
  | insert pre post c => exact EditStep.delete pre post c
  | delete pre post c => exact EditStep.insert pre post c
  | subst pre post c c' => exact EditStep.subst pre post c' c

theorem EditStep.revPair {u v : List Char} (h : EditStep u v) :
    EditStep u.reverse v.reverse := by
  cases h with
  | insert pre post c =>
    simpa [List.reverse_append] using EditStep.insert post.reverse pre.reverse c
  | delete pre post c =>
    simpa [List.reverse_append] using EditStep.delete post.reverse pre.reverse c
  | subst pre post c c' =>
    simpa [List.reverse_append] using EditStep.subst post.reverse pre.reverse c c'

theorem CostedEdits.consPair {n : Nat} {u v : List Char} (c : Char)
    (h : CostedEdits n u v) : CostedEdits n (c :: u) (c :: v) := by
  induction h with
  | zero xs => exact CostedEdits.zero (c :: xs)
  | step e _ ih => exact CostedEdits.step (e.consLift c) ih

theorem CostedEdits.snoc {n : Nat} {u v w : List Char}
    (h : CostedEdits n u v) (e : EditStep v w) : CostedEdits (n + 1) u w := by
  induction h with
  | zero xs => exact CostedEdits.step e (CostedEdits.zero _)
  | step e' _ ih => exact CostedEdits.step e' (ih e)

theorem CostedEdits.swapDir {n : Nat} {u v : List Char} (h : CostedEdits n u v) :
    CostedEdits n v u := by
  induction h with
  | zero xs => exact CostedEdits.zero xs
  | step e _ ih => exact ih.snoc e.swap

theorem CostedEdits.revBoth {n : Nat} {u v : List Char} (h : CostedEdits n u v) :
    CostedEdits n u.reverse v.reverse := by
  induction h with
  | zero xs => exact CostedEdits.zero xs.reverse
  | step e _ ih => exact CostedEdits.step e.revPair ih

/-! ## The classic recursion is 1-Lipschitz in single-character edits -/

theorem levRec_lipschitz₁ : ∀ n xs ys, List.length xs + List.length ys ≤ n →
    (∀ x, levRec (x :: xs) ys ≤ 1 + levRec xs ys) ∧
    (∀ y, levRec xs ys ≤ 1 + levRec xs (y :: ys)) := by
  intro n
  induction n with
  | zero =>
    intro xs ys h
    have hxs : xs = [] := List.length_eq_zero.mp (by omega)
    have hys : ys = [] := List.length_eq_zero.mp (by omega)
    subst hxs; subst hys
    constructor
    · intro x; simp [levRec_nil, levRec_nil_right]
    · intro y; simp [levRec_nil]
  | succ n ih =>
    intro xs ys h
    constructor
    · intro x
      cases ys with
      | nil => simp only [levRec_nil_right, List.length_cons]; omega
      | cons y ys' =>
        rw [levRec_cons_cons]
        by_cases hxy : x = y
        · rw [if_pos hxy]
          have := (ih xs ys' (by simp at h ⊢; omega)).2 y
          omega
        · rw [if_neg hxy]
          omega
    · intro y
      cases xs with
      | nil => simp only [levRec_nil, List.length_cons]; omega
      | cons x xs' =>
        rw [levRec_cons_cons]
        by_cases hxy : x = y
        · rw [if_pos hxy]
          have := (ih xs' ys (by simp at h ⊢; omega)).1 x
          omega
        · rw [if_neg hxy]
          have h1 := (ih xs' ys (by simp at h ⊢; omega)).1 x
          have h2 := (ih xs' ys (by simp at h ⊢; omega)).2 y
          omega

theorem levRec_del_head (x : Char) (xs ys : List Char) :
    levRec (x :: xs) ys ≤ 1 + levRec xs ys :=
  (levRec_lipschitz₁ _ xs ys le_rfl).1 x

theorem levRec_ins_right (y : Char) (xs ys : List Char) :
    levRec xs ys ≤ 1 + levRec xs (y :: ys) :=
  (levRec_lipschitz₁ _ xs ys le_rfl).2 y

theorem levRec_lipschitz₂ : ∀ n xs ys, List.length xs + List.length ys ≤ n →
    (∀ x, levRec xs ys ≤ 1 + levRec (x :: xs) ys) ∧
    (∀ y, levRec xs (y :: ys) ≤ 1 + levRec xs ys) := by
  intro n
  induction n with
  | zero =>
    intro xs ys h
    have hxs : xs = [] := List.length_eq_zero.mp (by omega)
    have hys : ys = [] := List.length_eq_zero.mp (by omega)
    subst hxs; subst hys
    constructor
    · intro x; simp [levRec_nil, levRec_nil_right]
    · intro y; simp [levRec_nil]
  | succ n ih =>
    intro xs ys h
    constructor
    · intro x
      cases ys with
      | nil => simp only [levRec_nil_right, List.length_cons]; omega
      | cons y ys' =>
        rw [levRec_cons_cons]
        by_cases hxy : x = y
        · rw [if_pos hxy]
          subst hxy
          have := (ih xs ys' (by simp at h ⊢; omega)).2 x
          omega
        · rw [if_neg hxy]
          have h1 := (ih xs ys' (by simp at h ⊢; omega)).2 y
          have h2 := (ih xs ys' (by simp at h ⊢; omega)).1 x
          omega
    · intro y
      cases xs with
      | nil => simp only [levRec_nil, List.length_cons]; omega
      | cons x xs' =>
        rw [levRec_cons_cons]
        by_cases hxy : x = y
        · rw [if_pos hxy]
          have := (ih xs' ys (by simp at h ⊢; omega)).1 x
          omega
        · rw [if_neg hxy]
          omega

theorem levRec_ins_head (x : Char) (xs ys : List Char) :
    levRec xs ys ≤ 1 + levRec (x :: xs) ys :=
  (levRec_lipschitz₂ _ xs ys le_rfl).1 x

theorem levRec_del_right (y : Char) (xs ys : List Char) :
    levRec xs (y :: ys) ≤ 1 + levRec xs ys :=
  (levRec_lipschitz₂ _ xs ys le_rfl).2 y

theorem levRec_subst_head (c c' : Char) (A : List Char) :
    ∀ ys, levRec (c :: A) ys ≤ 1 + levRec (c' :: A) ys := by
  intro ys
  induction ys with
  | nil => simp [levRec_nil_right]
  | cons y ys' ih =>
    rw [levRec_cons_cons, levRec_cons_cons]
    by_cases hc : c = y <;> by_cases hc' : c' = y
    · rw [if_pos hc, if_pos hc']; omega
    · rw [if_pos hc, if_neg hc']
      have h2 := levRec_ins_head c' A ys'
      have h3 := levRec_ins_right y A ys'
      omega
    · rw [if_neg hc, if_pos hc']; omega
    · rw [if_neg hc, if_neg hc']
      omega

/-- If levRec A is pointwise within k of levRec B, the same holds after
prepending the same character to both. -/
theorem levRec_cons_mono (p : Char) (A B : List Char) (k : Nat)
    (h : ∀ w, levRec A w ≤ k + levRec B w) :
    ∀ w, levRec (p :: A) w ≤ k + levRec (p :: B) w := by
  intro w
  induction w with
  | nil =>
    have := h []
    simp only [levRec_nil_right, List.length_cons] at *
    omega
  | cons y w' ih =>
    rw [levRec_cons_cons, levRec_cons_cons]
    by_cases hpy : p = y
    · rw [if_pos hpy, if_pos hpy]
      exact h w'
    · rw [if_neg hpy, if_neg hpy]
      have h1 := h w'
      have h2 := h (y :: w')
      omega

theorem levRec_insert_le (c : Char) : ∀ pre post w : List Char,
    levRec (pre ++ post) w ≤ 1 + levRec (pre ++ c :: post) w := by
  intro pre
  induction pre with
  | nil => intro post w; exact levRec_ins_head c post w
  | cons p pre' ih =>
    intro post w
    exact levRec_cons_mono p _ _ 1 (fun w' => ih post w') w

theorem levRec_delete_le (c : Char) : ∀ pre post w : List Char,
    levRec (pre ++ c :: post) w ≤ 1 + levRec (pre ++ post) w := by
  intro pre
  induction pre with
  | nil => intro post w; exact levRec_del_head c post w
  | cons p pre' ih =>
    intro post w
    exact levRec_cons_mono p _ _ 1 (fun w' => ih post w') w

theorem levRec_subst_le (c c' : Char) : ∀ pre post w : List Char,
    levRec (pre ++ c :: post) w ≤ 1 + levRec (pre ++ c' :: post) w := by
  intro pre
  induction pre with
  | nil => intro post w; exact levRec_subst_head c c' post w
  | cons p pre' ih =>
    intro post w
    exact levRec_cons_mono p _ _ 1 (fun w' => ih post w') w

theorem levRec_le_of_editStep {u v : List Char} (h : EditStep u v) (w : List Char) :
    levRec u w ≤ 1 + levRec v w := by
  cases h with
  | insert pre post c => exact levRec_insert_le c pre post w
  | delete pre post c => exact levRec_delete_le c pre post w
  | subst pre post c c' => exact levRec_subst_le c c' pre post w

/-! ## levRec is achieved by an edit script and is minimal among them -/

theorem costed_nil_left : ∀ ys : List Char, CostedEdits ys.length [] ys := by
  intro ys
  induction ys with
  | nil => exact CostedEdits.zero []
  | cons y ys' ih =>
    exact CostedEdits.step (EditStep.insert [] [] y) (ih.consPair y)

theorem costed_nil_right : ∀ xs : List Char, CostedEdits xs.length xs [] := by
  intro xs
  induction xs with
  | nil => exact CostedEdits.zero []
  | cons x xs' ih =>
    exact CostedEdits.step (EditStep.delete [] xs' x) ih

theorem levRec_self : ∀ xs : List Char, levRec xs xs = 0 := by
  intro xs
  induction xs with
  | nil => rfl
  | cons x xs' ih => rw [levRec_cons_cons]; simp [ih]

theorem costed_levRec : ∀ n xs ys, List.length xs + List.length ys ≤ n →
    CostedEdits (levRec xs ys) xs ys := by
  intro n
  induction n with
  | zero =>
    intro xs ys h
    have hxs : xs = [] := List.length_eq_zero.mp (by omega)
    have hys : ys = [] := List.length_eq_zero.mp (by omega)
    subst hxs; subst hys
    exact CostedEdits.zero []
  | succ n ih =>
    intro xs ys h
    cases xs with
    | nil => rw [levRec_nil]; exact costed_nil_left ys
    | cons x xs' =>
      cases ys with
      | nil => rw [levRec_nil_right]; exact costed_nil_right (x :: xs')
      | cons y ys' =>
        rw [levRec_cons_cons]
        by_cases hxy : x = y
        · simp only [hxy, if_true]
          exact (ih xs' ys' (by simp at h ⊢; omega)).consPair y
        · simp only [hxy, if_false]
          have hval : min (levRec xs' ys' + 1)
                (min (levRec (x :: xs') ys' + 1) (levRec xs' (y :: ys') + 1))
              = levRec xs' ys' + 1 ∨
              min (levRec xs' ys' + 1)
                (min (levRec (x :: xs') ys' + 1) (levRec xs' (y :: ys') + 1))
              = levRec (x :: xs') ys' + 1 ∨
              min (levRec xs' ys' + 1)
                (min (levRec (x :: xs') ys' + 1) (levRec xs' (y :: ys') + 1))
              = levRec xs' (y :: ys') + 1 := by omega
          rcases hval with hval | hval | hval <;> rw [hval]
          · exact CostedEdits.step (EditStep.subst [] xs' x y)
              ((ih xs' ys' (by simp at h ⊢; omega)).consPair y)
          · exact CostedEdits.step (EditStep.insert [] (x :: xs') y)
              ((ih (x :: xs') ys' (by simp at h ⊢; omega)).consPair y)
          · exact CostedEdits.step (EditStep.delete [] xs' x)
              (ih xs' (y :: ys') (by simp at h ⊢; omega))

theorem levRec_le_of_costed {n : Nat} {xs ys : List Char}
    (h : CostedEdits n xs ys) : levRec xs ys ≤ n := by
  induction h with
  | zero xs => rw [levRec_self]
  | step e _ ih =>
    exact le_trans (levRec_le_of_editStep e _) (by omega)

/-! ## Character classes of the JavaScript regular expressions (ASCII core) -/

theorem char_toNat_ofNat (n : Nat) (h : n < 55296) : (Char.ofNat n).toNat = n := by
  have hv : Nat.isValidChar n := Or.inl h
  rw [Char.ofNat, dif_pos hv]
  simp [Char.ofNatAux, Char.toNat, UInt32.ofNat', UInt32.toNat, BitVec.toNat_ofNatLt]

theorem u32_le_iff (a b : UInt32) : a ≤ b ↔ a.toNat ≤ b.toNat := Iff.rfl

theorem char_isUpper_iff (c : Char) : c.isUpper = true ↔ 65 ≤ c.toNat ∧ c.toNat ≤ 90 := by
  simp only [Char.isUpper, Bool.and_eq_true, decide_eq_true_eq, ge_iff_le]
  rw [u32_le_iff, u32_le_iff]
  exact Iff.rfl

theorem toLower_not_isUpper (c : Char) : (Char.toLower c).isUpper = false := by
  unfold Char.toLower
  by_cases h : c.toNat ≥ 65 ∧ c.toNat ≤ 90
  · rw [if_pos h, Bool.eq_false_iff]
    intro hu
    have hx := (char_isUpper_iff _).mp hu
    rw [char_toNat_ofNat _ (by omega)] at hx
    omega
  · rw [if_neg h, Bool.eq_false_iff]
    intro hu
    exact h (by have := (char_isUpper_iff _).mp hu; omega)

/-- JavaScript word-class characters: the regex class of word characters is
the letters, the digits and the underscore. -/
def jsWordChar (c : Char) : Bool := c.isAlpha || c.isDigit || c == '_'

/-- JavaScript whitespace-class characters (core forms). -/
def jsSpaceChar (c : Char) : Bool :=
  c == ' ' || c == '\t' || c == '\n' || c == '\r' || c == '\x0b' || c == '\x0c'

/-- A character survives the first replace of normalize exactly when it is a
word or whitespace character and is not an underscore. -/
def keepChar (c : Char) : Bool := (jsWordChar c || jsSpaceChar c) && !(c == '_')

/-! ## Text normalization (normalize, Footer.tsx line 783) -/

/-- Replace every maximal run of whitespace by a single space; the flag says
whether we are inside a run already emitted as a space. -/
def collapseWsAux : Bool → List Char → List Char
  | _, [] => []
  | inRun, c :: cs =>
    if jsSpaceChar c then
      if inRun then collapseWsAux true cs
      else ' ' :: collapseWsAux true cs
    else c :: collapseWsAux false cs

def collapseWs (l : List Char) : List Char := collapseWsAux false l

def trimLeft (l : List Char) : List Char := l.dropWhile jsSpaceChar

def trimRight (l : List Char) : List Char := (l.reverse.dropWhile jsSpaceChar).reverse

def jsTrim (l : List Char) : List Char := trimRight (trimLeft l)

/-- The normalize arrow function of the source: lower-case, delete every
character that is neither word nor whitespace as well as every underscore,
collapse whitespace runs to single spaces, trim both ends. -/
def normalize (s : List Char) : List Char :=
  jsTrim (collapseWs ((s.map Char.toLower).filter keepChar))

/-- JavaScript split on a single space: accumulates the current token in
reverse; an empty string splits to the one-element list of the empty token. -/
def splitAux : List Char → List Char → List (List Char)
  | acc, [] => [acc.reverse]
  | acc, c :: cs =>
    if c = ' ' then acc.reverse :: splitAux [] cs else splitAux (c :: acc) cs

def splitOnSpace (l : List Char) : List (List Char) := splitAux [] l

def splitWords (s : List Char) : List (List Char) := splitOnSpace (normalize s)

/-! ## Greedy windowed aligner (calculateSpeakingScore, Footer.tsx 779-833) -/

def SEARCH_WINDOW : Nat := 6

def allowedEdits (t : List Char) : Nat := if t.length > 5 then 2 else 1

/-- The per-candidate test of the inner loop: the exact comparison first,
then the fuzzy edit-distance comparison against the threshold of the target. -/
def matchAt (t s : List Char) : Bool :=
  s == t || decide (getLevenshteinDistance t s ≤ allowedEdits t)

/-- Left-to-right scan of at most fuel indices starting at i, returning the
first index whose word passes the test p. -/
def goFind (p : List Char → Bool) (S : List (List Char)) : Nat → Nat → Option Nat
  | _, 0 => none
  | i, fuel + 1 => if p (S.getD i []) then some i else goFind p S (i + 1) fuel

/-- The inner loop of the scorer: scan the half-open window from the cursor c
to min (c + 6) S.length for the first candidate passing the combined
exact-or-fuzzy test. -/
def findInWindow (t : List Char) (S : List (List Char)) (c : Nat) : Option Nat :=
  goFind (matchAt t) S c (min (c + SEARCH_WINDOW) S.length - c)

/-- The outer loop over target words; the result is (matches, cursor). -/
def alignRun (S : List (List Char)) : List (List Char) → Nat → Nat × Nat
  | [], c => (0, c)
  | t :: ts, c =>
    match findInWindow t S c with
    | some i => ((alignRun S ts (i + 1)).1 + 1, (alignRun S ts (i + 1)).2)
    | none => alignRun S ts c

/-- The list of (search cursor, matched index) pairs of the matching steps of
the run, in order. -/
def alignTrace (S : List (List Char)) : List (List Char) → Nat → List (Nat × Nat)
  | [], _ => []
  | t :: ts, c =>
    match findInWindow t S c with
    | some i => (c, i) :: alignTrace S ts (i + 1)
    | none => alignTrace S ts c

def matchesCount (T S : List (List Char)) : Nat := (alignRun S T 0).1

/-- Math.round((matches / targetWords.length) * 100) in exact rational
arithmetic; round is the half-up rounding of Mathlib, as Math.round is. -/
def calculatedScore (T S : List (List Char)) : ℤ :=
  round ((matchesCount T S : ℚ) / (T.length : ℚ) * 100)

/-- The pronunciation score: 0 under the no-speech guard, otherwise the
rounded percentage clamped to at most 100. -/
def scoreWords (T S : List (List Char)) : ℤ :=
  if S = [] ∨ S = [[]] then 0 else min 100 (calculatedScore T S)

/-- Both outputs of calculateSpeakingScore: the pronunciation score and the
optional global test record passed to setScore; the record stays unset
(none) when the no-speech guard fires. -/
def outcomeWords (T S : List (List Char)) : ℤ × Option (Nat × Nat) :=
  if S = [] ∨ S = [[]] then (0, none)
  else (min 100 (calculatedScore T S),
    some (if calculatedScore T S ≥ 70 then 1 else 0, 1))

/-- The full pipeline on raw story and spoken texts. -/
def calculateSpeakingScore (story spoken : List Char) : ℤ × Option (Nat × Nat) :=
  outcomeWords (splitWords story) (splitWords spoken)

/-! ## The two-pass window search in the words of the spec

The spec describes the window search as two scans: first the whole window is
scanned for an exact equality, and only when none exists is it scanned again
for the first fuzzy candidate.  These definitions follow the words of the
spec so they can be compared with findInWindow above. -/

def specFindInWindow (t : List Char) (S : List (List Char)) (c : Nat) : Option Nat :=
  match goFind (fun s => s == t) S c (min (c + SEARCH_WINDOW) S.length - c) with
  | some i => some i
  | none =>
    goFind (fun s => decide (getLevenshteinDistance t s ≤ allowedEdits t)) S c
      (min (c + SEARCH_WINDOW) S.length - c)

def specAlignRun (S : List (List Char)) : List (List Char) → Nat → Nat × Nat
  | [], c => (0, c)
  | t :: ts, c =>
    match specFindInWindow t S c with
    | some i => ((specAlignRun S ts (i + 1)).1 + 1, (specAlignRun S ts (i + 1)).2)
    | none => specAlignRun S ts c

def specScoreWords (T S : List (List Char)) : ℤ :=
  if S = [] ∨ S = [[]] then 0
  else min 100 (round (((specAlignRun S T 0).1 : ℚ) / (T.length : ℚ) * 100))

/-- Insertion of one element at a position (identity past the end), used to
state the filler-word claim. -/
def insertAt {α : Type} : Nat → α → List α → List α
  | 0, a, l => a :: l
  | _ + 1, _, [] => []
  | n + 1, a, x :: xs => x :: insertAt n a xs

/-! ## Characterization of the window search -/

theorem goFind_eq_some (p : List Char → Bool) (S : List (List Char)) :
    ∀ fuel i j, (goFind p S i fuel = some j ↔
      (i ≤ j ∧ j < i + fuel ∧ p (S.getD j []) = true ∧
        ∀ k, i ≤ k → k < j → p (S.getD k []) = false)) := by
  intro fuel
  induction fuel with
  | zero =>
    intro i j
    constructor
    · intro h; exact absurd h (by simp [goFind])
    · rintro ⟨h1, h2, -, -⟩; omega
  | succ fuel ih =>
    intro i j
    rw [goFind]
    by_cases hp : p (S.getD i []) = true
    · rw [if_pos hp]
      constructor
      · intro h
        have hij : i = j := by injection h
        subst hij
        exact ⟨le_rfl, by omega, hp, fun k hk1 hk2 => absurd (lt_of_le_of_lt hk1 hk2) (lt_irrefl _)⟩
      · rintro ⟨h1, h2, h3, h4⟩
        rcases Nat.eq_or_lt_of_le h1 with heq | hlt
        · rw [heq]
        · exact absurd hp (by rw [h4 i le_rfl hlt]; simp)
    · rw [if_neg hp]
      rw [ih (i + 1) j]
      constructor
      · rintro ⟨h1, h2, h3, h4⟩
        refine ⟨by omega, by omega, h3, fun k hk1 hk2 => ?_⟩
        rcases Nat.eq_or_lt_of_le hk1 with heq | hlt
        · rw [← heq]; exact Bool.not_eq_true _ |>.mp hp
        · exact h4 k hlt hk2
      · rintro ⟨h1, h2, h3, h4⟩
        have hij : i ≠ j := by
          intro heq
          rw [← heq] at h3
          exact hp h3
        exact ⟨by omega, by omega, h3, fun k hk1 hk2 => h4 k (by omega) hk2⟩

theorem goFind_eq_none (p : List Char → Bool) (S : List (List Char)) :
    ∀ fuel i, (goFind p S i fuel = none ↔
      ∀ k, i ≤ k → k < i + fuel → p (S.getD k []) = false) := by
  intro fuel
  induction fuel with
  | zero =>
    intro i
    constructor
    · intro _ k hk1 hk2
      exact absurd hk2 (by omega)
    · intro _
      rfl
  | succ fuel ih =>
    intro i
    rw [goFind]
    by_cases hp : p (S.getD i []) = true
    · rw [if_pos hp]
      constructor
      · intro h; exact absurd h (by simp)
      · intro h
        exact absurd hp (by rw [h i le_rfl (by omega)]; simp)
    · rw [if_neg hp]
      rw [ih (i + 1)]
      constructor
      · intro h k hk1 hk2
        rcases Nat.eq_or_lt_of_le hk1 with heq | hlt
        · rw [← heq]; exact Bool.not_eq_true _ |>.mp hp
        · exact h k hlt (by omega)
      · intro h k hk1 hk2
        exact h k (by omega) (by omega)

theorem findInWindow_some_iff (t : List Char) (S : List (List Char)) (c j : Nat) :
    findInWindow t S c = some j ↔
      (c ≤ j ∧ j < min (c + 6) S.length ∧ matchAt t (S.getD j []) = true ∧
        ∀ k, c ≤ k → k < j → matchAt t (S.getD k []) = false) := by
  unfold findInWindow SEARCH_WINDOW
  rw [goFind_eq_some]
  constructor
  · rintro ⟨h1, h2, h3, h4⟩
    exact ⟨h1, by omega, h3, h4⟩
  · rintro ⟨h1, h2, h3, h4⟩
    exact ⟨h1, by omega, h3, h4⟩

theorem findInWindow_none_iff (t : List Char) (S : List (List Char)) (c : Nat) :
    findInWindow t S c = none ↔
      ∀ k, c ≤ k → k < min (c + 6) S.length → matchAt t (S.getD k []) = false := by
  unfold findInWindow SEARCH_WINDOW
  rw [goFind_eq_none]
  constructor
  · intro h k hk1 hk2
    exact h k hk1 (by omega)
  · intro h k hk1 hk2
    exact h k hk1 (by omega)

theorem matchAt_iff (t s : List Char) :
    matchAt t s = true ↔ (s = t ∨ getLevenshteinDistance t s ≤ allowedEdits t) := by
  simp [matchAt]

theorem getLev_self (t : List Char) : getLevenshteinDistance t t = 0 := by
  rw [getLevenshteinDistance_eq_levRec, levRec_self]

/-! ## Basic facts about the outer loop -/

theorem alignRun_nil (S : List (List Char)) (c : Nat) : alignRun S [] c = (0, c) := rfl

theorem alignRun_cons_some {t : List Char} {S : List (List Char)} {c i : Nat}
    (ts : List (List Char)) (h : findInWindow t S c = some i) :
    alignRun S (t :: ts) c =
      ((alignRun S ts (i + 1)).1 + 1, (alignRun S ts (i + 1)).2) := by
  simp [alignRun, h]

theorem alignRun_cons_none {t : List Char} {S : List (List Char)} {c : Nat}
    (ts : List (List Char)) (h : findInWindow t S c = none) :
    alignRun S (t :: ts) c = alignRun S ts c := by
  simp [alignRun, h]

theorem alignTrace_nil (S : List (List Char)) (c : Nat) : alignTrace S [] c = [] := rfl

theorem alignTrace_cons_some {t : List Char} {S : List (List Char)} {c i : Nat}
    (ts : List (List Char)) (h : findInWindow t S c = some i) :
    alignTrace S (t :: ts) c = (c, i) :: alignTrace S ts (i + 1) := by
  simp [alignTrace, h]

theorem alignTrace_cons_none {t : List Char} {S : List (List Char)} {c : Nat}
    (ts : List (List Char)) (h : findInWindow t S c = none) :
    alignTrace S (t :: ts) c = alignTrace S ts c := by
  simp [alignTrace, h]

theorem alignRun_cursor_le (S : List (List Char)) :
    ∀ ts c, c ≤ (alignRun S ts c).2 := by
  intro ts
  induction ts with
  | nil => intro c; simp [alignRun_nil]
  | cons t ts ih =>
    intro c
    cases hf : findInWindow t S c with
    | some i =>
      rw [alignRun_cons_some ts hf]
      have hc := (findInWindow_some_iff t S c i).mp hf
      have := ih (i + 1)
      simp only []
      omega
    | none =>
      rw [alignRun_cons_none ts hf]
      exact ih c

theorem alignRun_append (S : List (List Char)) :
    ∀ ts ts' c, alignRun S (ts ++ ts') c =
      ((alignRun S ts c).1 + (alignRun S ts' (alignRun S ts c).2).1,
        (alignRun S ts' (alignRun S ts c).2).2) := by
  intro ts
  induction ts with
  | nil => intro ts' c; simp [alignRun_nil]
  | cons t ts ih =>
    intro ts' c
    cases hf : findInWindow t S c with
    | some i =>
      rw [List.cons_append, alignRun_cons_some (ts ++ ts') hf,
        alignRun_cons_some ts hf, ih ts' (i + 1)]
      simp only [Prod.mk.injEq]
      refine ⟨by omega, by simp⟩
    | none =>
      rw [List.cons_append, alignRun_cons_none (ts ++ ts') hf,
        alignRun_cons_none ts hf]
      exact ih ts' c

theorem alignTrace_bounds (S : List (List Char)) :
    ∀ ts c, ∀ pr ∈ alignTrace S ts c,
      c ≤ pr.1 ∧ pr.1 ≤ pr.2 ∧ pr.2 < min (pr.1 + 6) S.length := by
  intro ts
  induction ts with
  | nil => intro c pr hpr; simp [alignTrace_nil] at hpr
  | cons t ts ih =>
    intro c pr hpr
    cases hf : findInWindow t S c with
    | some i =>
      rw [alignTrace_cons_some ts hf] at hpr
      have hc := (findInWindow_some_iff t S c i).mp hf
      rcases List.mem_cons.mp hpr with heq | hmem
      · subst heq
        exact ⟨le_rfl, hc.1, hc.2.1⟩
      · have := ih (i + 1) pr hmem
        exact ⟨by omega, this.2.1, this.2.2⟩
    | none =>
      rw [alignTrace_cons_none ts hf] at hpr
      exact ih c pr hpr

theorem alignTrace_length (S : List (List Char)) :
    ∀ ts c, (alignTrace S ts c).length = (alignRun S ts c).1 := by
  intro ts
  induction ts with
  | nil => intro c; simp [alignTrace_nil, alignRun_nil]
  | cons t ts ih =>
    intro c
    cases hf : findInWindow t S c with
    | some i =>
      rw [alignTrace_cons_some ts hf, alignRun_cons_some ts hf]
      simp [ih (i + 1)]
    | none =>
      rw [alignTrace_cons_none ts hf, alignRun_cons_none ts hf]
      exact ih c

theorem alignTrace_sorted (S : List (List Char)) :
    ∀ ts c, List.Pairwise (fun p q : Nat × Nat => p.2 < q.2) (alignTrace S ts c) := by
  intro ts
  induction ts with
  | nil => intro c; simp [alignTrace_nil]
  | cons t ts ih =>
    intro c
    cases hf : findInWindow t S c with
    | some i =>
      rw [alignTrace_cons_some ts hf]
      refine List.Pairwise.cons ?_ (ih (i + 1))
      intro q hq
      have := alignTrace_bounds S ts (i + 1) q hq
      simp only []
      omega
    | none =>
      rw [alignTrace_cons_none ts hf]
      exact ih c

/-! ## insertAt lemmas -/

theorem length_insertAt {α : Type} (a : α) :
    ∀ p l, p ≤ List.length l → (insertAt p a l).length = l.length + 1 := by
  intro p
  induction p with
  | zero => intro l _; simp [insertAt]
  | succ p ih =>
    intro l hl
    cases l with
    | nil => simp at hl
    | cons x xs =>
      simp only [insertAt, List.length_cons]
      rw [ih xs (by simpa using hl)]

theorem getD_insertAt_lt {α : Type} (d a : α) :
    ∀ p l j, j < p → (insertAt p a l).getD j d = l.getD j d := by
  intro p
  induction p with
  | zero => intro l j hj; omega
  | succ p ih =>
    intro l j hj
    cases l with
    | nil => simp [insertAt]
    | cons x xs =>
      cases j with
      | zero => simp [insertAt]
      | succ j => simp only [insertAt, List.getD_cons_succ]; exact ih xs j (by omega)

theorem getD_insertAt_self {α : Type} (d a : α) :
    ∀ p l, p ≤ List.length l → (insertAt p a l).getD p d = a := by
  intro p
  induction p with
  | zero => intro l _; simp [insertAt]
  | succ p ih =>
    intro l hl
    cases l with
    | nil => simp at hl
    | cons x xs =>
      simp only [insertAt, List.getD_cons_succ]
      exact ih xs (by simpa using hl)

theorem getD_insertAt_gt {α : Type} (d a : α) :
    ∀ p l j, p < j → (insertAt p a l).getD j d = l.getD (j - 1) d := by
  intro p
  induction p with
  | zero =>
    intro l j hj
    cases j with
    | zero => omega
    | succ j => simp [insertAt]
  | succ p ih =>
    intro l j hj
    cases l with
    | nil => simp [insertAt]
    | cons x xs =>
      cases j with
      | zero => omega
      | succ j =>
        simp only [insertAt, List.getD_cons_succ]
        rw [ih xs j (by omega)]
        cases j with
        | zero => omega
        | succ j => simp

/-! ## Effect of inserting one filler word that matches no target -/

theorem findInWindow_insert_shift (t f : List Char) (S : List (List Char)) (p : Nat)
    (hp : p ≤ S.length) :
    ∀ c, p ≤ c → findInWindow t (insertAt p f S) (c + 1) =
      (findInWindow t S c).map (· + 1) := by
  intro c hc
  have hlen : (insertAt p f S).length = S.length + 1 := length_insertAt f p S hp
  cases hf : findInWindow t S c with
  | some j =>
    have hj := (findInWindow_some_iff t S c j).mp hf
    simp only [Option.map_some']
    rw [findInWindow_some_iff]
    refine ⟨by omega, ?_, ?_, ?_⟩
    · rw [hlen]
      have := hj.2.1
      omega
    · rw [getD_insertAt_gt [] f p S (j + 1) (by omega)]
      simpa using hj.2.2.1
    · intro k hk1 hk2
      rw [getD_insertAt_gt [] f p S k (by omega)]
      exact hj.2.2.2 (k - 1) (by omega) (by omega)
  | none =>
    have hn := (findInWindow_none_iff t S c).mp hf
    simp only [Option.map_none']
    rw [findInWindow_none_iff]
    intro k hk1 hk2
    rw [hlen] at hk2
    rw [getD_insertAt_gt [] f p S k (by omega)]
    exact hn (k - 1) (by omega) (by omega)

theorem alignRun_insert_shift (f : List Char) (S : List (List Char)) (p : Nat)
    (hp : p ≤ S.length) :
    ∀ ts c, p ≤ c →
      (alignRun (insertAt p f S) ts (c + 1)).1 = (alignRun S ts c).1 := by
  intro ts
  induction ts with
  | nil => intro c _; simp [alignRun_nil]
  | cons t ts ih =>
    intro c hc
    have hshift := findInWindow_insert_shift t f S p hp c hc
    cases hf : findInWindow t S c with
    | some j =>
      rw [hf, Option.map_some'] at hshift
      rw [alignRun_cons_some ts hshift, alignRun_cons_some ts hf]
      have hj := (findInWindow_some_iff t S c j).mp hf
      have hrec := ih (j + 1) (by omega)
      show (alignRun (insertAt p f S) ts (j + 1 + 1)).1 + 1 = (alignRun S ts (j + 1)).1 + 1
      omega
    | none =>
      rw [hf, Option.map_none'] at hshift
      rw [alignRun_cons_none ts hshift, alignRun_cons_none ts hf]
      exact ih c hc

/-- Inserting, at the position of one of the matches of the run, a filler word
that passes the test of no target word leaves the number of matches
unchanged, provided the match sat at offset at most 4 from the cursor of its
search (so that the insertion does not push the matched word out of the
6-wide window). -/
theorem alignRun_insert_unmatched (f : List Char) (S : List (List Char)) (cur p : Nat) :
    ∀ ts c, (∀ t ∈ ts, matchAt t f = false) →
      (cur, p) ∈ alignTrace S ts c → p - cur ≤ 4 →
      (alignRun (insertAt p f S) ts c).1 = (alignRun S ts c).1 := by
  intro ts
  induction ts with
  | nil => intro c _ hmem _; simp [alignTrace_nil] at hmem
  | cons t ts ih =>
    intro c hnof hmem hnear
    have hbounds := alignTrace_bounds S (t :: ts) c (cur, p) hmem
    have hpS : p < S.length := by
      have := hbounds.2.2
      omega
    have hp : p ≤ S.length := le_of_lt hpS
    have hlen : (insertAt p f S).length = S.length + 1 := length_insertAt f p S hp
    cases hf : findInWindow t S c with
    | some i =>
      have hi := (findInWindow_some_iff t S c i).mp hf
      rw [alignTrace_cons_some ts hf] at hmem
      rcases List.mem_cons.mp hmem with heq | hmem'
      · injection heq with h1 h2
        subst h1
        subst h2
        have hfind' : findInWindow t (insertAt p f S) cur = some (p + 1) := by
          rw [findInWindow_some_iff]
          refine ⟨by omega, ?_, ?_, ?_⟩
          · rw [hlen]
            have := hbounds.2.2
            omega
          · rw [getD_insertAt_gt [] f p S (p + 1) (by omega)]
            simpa using hi.2.2.1
          · intro k hk1 hk2
            rcases Nat.lt_or_ge k p with hklt | hkge
            · rw [getD_insertAt_lt [] f p S k hklt]
              exact hi.2.2.2 k hk1 hklt
            · have hkp : k = p := by omega
              rw [hkp]
              rw [getD_insertAt_self [] f p S hp]
              exact hnof t (List.mem_cons_self t ts)
        rw [alignRun_cons_some ts hfind', alignRun_cons_some ts hf]
        have hrec := alignRun_insert_shift f S p hp ts (p + 1) (by omega)
        show (alignRun (insertAt p f S) ts (p + 1 + 1)).1 + 1 =
          (alignRun S ts (p + 1)).1 + 1
        omega
      · have hcurb := alignTrace_bounds S ts (i + 1) (cur, p) hmem'
        have hip : i < p := by omega
        have hfind' : findInWindow t (insertAt p f S) c = some i := by
          rw [findInWindow_some_iff]
          refine ⟨hi.1, ?_, ?_, ?_⟩
          · rw [hlen]
            have := hi.2.1
            omega
          · rw [getD_insertAt_lt [] f p S i hip]
            exact hi.2.2.1
          · intro k hk1 hk2
            rw [getD_insertAt_lt [] f p S k (by omega)]
            exact hi.2.2.2 k hk1 hk2
        rw [alignRun_cons_some ts hfind', alignRun_cons_some ts hf]
        have hrec := ih (i + 1)
          (fun t' ht' => hnof t' (List.mem_cons_of_mem t ht')) hmem' hnear
        show (alignRun (insertAt p f S) ts (i + 1)).1 + 1 = (alignRun S ts (i + 1)).1 + 1
        omega
    | none =>
      rw [alignTrace_cons_none ts hf] at hmem
      have hcurb := alignTrace_bounds S ts c (cur, p) hmem
      have hn := (findInWindow_none_iff t S c).mp hf
      have hfind' : findInWindow t (insertAt p f S) c = none := by
        rw [findInWindow_none_iff]
        intro k hk1 hk2
        rw [hlen] at hk2
        rcases Nat.lt_trichotomy k p with hk | hk | hk
        · rw [getD_insertAt_lt [] f p S k hk]
          exact hn k hk1 (by omega)
        · rw [hk]
          rw [getD_insertAt_self [] f p S hp]
          exact hnof t (List.mem_cons_self t ts)
        · rw [getD_insertAt_gt [] f p S k hk]
          exact hn (k - 1) (by omega) (by omega)
      rw [alignRun_cons_none ts hfind', alignRun_cons_none ts hf]
      exact ih c (fun t' ht' => hnof t' (List.mem_cons_of_mem t ht')) hmem hnear

/-! ## Score bounds -/

theorem calculatedScore_nonneg (T S : List (List Char)) :
    0 ≤ calculatedScore T S := by
  unfold calculatedScore
  rw [round_eq]
  refine Int.le_floor.mpr ?_
  push_cast
  positivity

theorem scoreWords_nonneg (T S : List (List Char)) : 0 ≤ scoreWords T S := by
  unfold scoreWords
  split
  · exact le_rfl
  · exact le_min (by norm_num) (calculatedScore_nonneg T S)

theorem scoreWords_le_100 (T S : List (List Char)) : scoreWords T S ≤ 100 := by
  unfold scoreWords
  split
  · norm_num
  · exact min_le_left _ _

/-! ## Structure of normalized text -/

theorem collapseWsAux_nil (b : Bool) : collapseWsAux b [] = [] := rfl

theorem collapseWsAux_space_true {c : Char} (h : jsSpaceChar c = true)
    (cs : List Char) : collapseWsAux true (c :: cs) = collapseWsAux true cs := by
  simp [collapseWsAux, h]

theorem collapseWsAux_space_false {c : Char} (h : jsSpaceChar c = true)
    (cs : List Char) :
    collapseWsAux false (c :: cs) = ' ' :: collapseWsAux true cs := by
  simp [collapseWsAux, h]

theorem collapseWsAux_nonspace {c : Char} (h : jsSpaceChar c = false) (b : Bool)
    (cs : List Char) : collapseWsAux b (c :: cs) = c :: collapseWsAux false cs := by
  simp [collapseWsAux, h]

theorem mem_collapseWsAux : ∀ (l : List Char) (b : Bool) (c : Char),
    c ∈ collapseWsAux b l → c = ' ' ∨ (c ∈ l ∧ jsSpaceChar c = false) := by
  intro l
  induction l with
  | nil => intro b c hc; simp [collapseWsAux_nil] at hc
  | cons x xs ih =>
    intro b c hc
    by_cases hx : jsSpaceChar x = true
    · cases b with
      | true =>
        rw [collapseWsAux_space_true hx] at hc
        rcases ih true c hc with h | h
        · exact Or.inl h
        · exact Or.inr ⟨List.mem_cons_of_mem x h.1, h.2⟩
      | false =>
        rw [collapseWsAux_space_false hx] at hc
        rcases List.mem_cons.mp hc with h | h
        · exact Or.inl h
        · rcases ih true c h with h' | h'
          · exact Or.inl h'
          · exact Or.inr ⟨List.mem_cons_of_mem x h'.1, h'.2⟩
    · have hx' : jsSpaceChar x = false := by simpa using hx
      rw [collapseWsAux_nonspace hx'] at hc
      rcases List.mem_cons.mp hc with h | h
      · rw [h]
        exact Or.inr ⟨List.mem_cons_self x xs, hx'⟩
      · rcases ih false c h with h' | h'
        · exact Or.inl h'
        · exact Or.inr ⟨List.mem_cons_of_mem x h'.1, h'.2⟩

theorem head_collapseWsAux_true : ∀ (l : List Char) (c : Char),
    (collapseWsAux true l).head? = some c → jsSpaceChar c = false := by
  intro l
  induction l with
  | nil => intro c hc; simp [collapseWsAux_nil] at hc
  | cons x xs ih =>
    intro c hc
    by_cases hx : jsSpaceChar x = true
    · rw [collapseWsAux_space_true hx] at hc
      exact ih c hc
    · have hx' : jsSpaceChar x = false := by simpa using hx
      rw [collapseWsAux_nonspace hx', List.head?_cons] at hc
      injection hc with hc
      rw [← hc]
      exact hx'

theorem jsSpaceChar_space : jsSpaceChar ' ' = true := by decide

theorem chain_collapseWsAux :
    ∀ (l : List Char) (b : Bool),
      List.Chain' (fun a c => a ≠ ' ' ∨ c ≠ ' ') (collapseWsAux b l) := by
  intro l
  induction l with
  | nil => intro b; simp [collapseWsAux_nil]
  | cons x xs ih =>
    intro b
    by_cases hx : jsSpaceChar x = true
    · cases b with
      | true => rw [collapseWsAux_space_true hx]; exact ih true
      | false =>
        rw [collapseWsAux_space_false hx, List.chain'_cons']
        refine ⟨?_, ih true⟩
        intro c hc
        right
        intro hceq
        have hsp := head_collapseWsAux_true xs c hc
        rw [hceq, jsSpaceChar_space] at hsp
        simp at hsp
    · have hx' : jsSpaceChar x = false := by simpa using hx
      rw [collapseWsAux_nonspace hx', List.chain'_cons']
      refine ⟨?_, ih false⟩
      intro c _
      left
      intro hxeq
      rw [hxeq, jsSpaceChar_space] at hx'
      simp at hx'

theorem head?_dropWhile_false (p : Char → Bool) :
    ∀ (l : List Char) (c : Char), (l.dropWhile p).head? = some c → p c = false := by
  intro l
  induction l with
  | nil => intro c hc; simp at hc
  | cons x xs ih =>
    intro c hc
    by_cases hx : p x = true
    · rw [List.dropWhile_cons_of_pos hx] at hc
      exact ih c hc
    · rw [List.dropWhile_cons_of_neg hx, List.head?_cons] at hc
      injection hc with hc
      rw [← hc]
      simpa using hx

theorem trimRight_pre (l : List Char) : trimRight l <+: l := by
  unfold trimRight
  have h1 : l.reverse.dropWhile jsSpaceChar <:+ l.reverse := List.dropWhile_suffix _
  have h2 := h1.reverse
  rwa [List.reverse_reverse] at h2

theorem head?_of_pre {l' l : List Char} {c : Char} (h : l' <+: l)
    (hc : l'.head? = some c) : l.head? = some c := by
  obtain ⟨t, ht⟩ := h
  cases l' with
  | nil => simp at hc
  | cons x xs =>
    rw [List.head?_cons] at hc
    rw [← ht, List.cons_append, List.head?_cons]
    exact hc

theorem normalize_head_not_space (s : List Char) :
    ∀ c, (normalize s).head? = some c → jsSpaceChar c = false := by
  intro c hc
  unfold normalize jsTrim at hc
  have hc' := head?_of_pre (trimRight_pre _) hc
  exact head?_dropWhile_false jsSpaceChar _ c hc'

theorem normalize_getLast_not_space (s : List Char) :
    ∀ c, (normalize s).getLast? = some c → jsSpaceChar c = false := by
  intro c hc
  unfold normalize jsTrim trimRight at hc
  rw [List.getLast?_reverse] at hc
  exact head?_dropWhile_false jsSpaceChar _ c hc

theorem normalize_chain (s : List Char) :
    List.Chain' (fun a c => a ≠ ' ' ∨ c ≠ ' ') (normalize s) := by
  unfold normalize jsTrim
  have h1 : List.Chain' (fun a c => a ≠ ' ' ∨ c ≠ ' ')
      (collapseWs ((s.map Char.toLower).filter keepChar)) :=
    chain_collapseWsAux _ false
  have h2 : List.Chain' (fun a c => a ≠ ' ' ∨ c ≠ ' ')
      (trimLeft (collapseWs ((s.map Char.toLower).filter keepChar))) :=
    h1.suffix (List.dropWhile_suffix jsSpaceChar)
  exact h2.prefix (trimRight_pre _)

theorem mem_normalize (s : List Char) {c : Char} (hc : c ∈ normalize s) :
    c ∈ collapseWs ((s.map Char.toLower).filter keepChar) := by
  unfold normalize jsTrim at hc
  have h1 := (trimRight_pre _).sublist.subset hc
  unfold trimLeft at h1
  exact (List.dropWhile_sublist _).subset h1

theorem splitAux_nil (acc : List Char) : splitAux acc [] = [acc.reverse] := rfl

theorem splitAux_cons_space (acc cs : List Char) :
    splitAux acc (' ' :: cs) = acc.reverse :: splitAux [] cs := by
  simp [splitAux]

theorem splitAux_cons_of_ne {x : Char} (h : x ≠ ' ') (acc cs : List Char) :
    splitAux acc (x :: cs) = splitAux (x :: acc) cs := by
  simp [splitAux, h]

theorem splitAux_token_chars : ∀ (l acc t : List Char) (c : Char),
    t ∈ splitAux acc l → c ∈ t → c ∈ acc ∨ (c ∈ l ∧ c ≠ ' ') := by
  intro l
  induction l with
  | nil =>
    intro acc t c ht hc
    simp only [splitAux_nil, List.mem_singleton] at ht
    rw [ht] at hc
    exact Or.inl (List.mem_reverse.mp hc)
  | cons x xs ih =>
    intro acc t c ht hc
    by_cases hx : x = ' '
    · subst hx
      rw [splitAux_cons_space] at ht
      rcases List.mem_cons.mp ht with h | h
      · rw [h] at hc
        exact Or.inl (List.mem_reverse.mp hc)
      · rcases ih [] t c h hc with h' | h'
        · simp at h'
        · exact Or.inr ⟨List.mem_cons_of_mem _ h'.1, h'.2⟩
    · rw [splitAux_cons_of_ne hx] at ht
      rcases ih (x :: acc) t c ht hc with h' | h'
      · rcases List.mem_cons.mp h' with h'' | h''
        · rw [h'']
          exact Or.inr ⟨List.mem_cons_self x xs, hx⟩
        · exact Or.inl h''
      · exact Or.inr ⟨List.mem_cons_of_mem _ h'.1, h'.2⟩

theorem splitWords_chars (s : List Char) :
    ∀ t ∈ splitWords s, ∀ c ∈ t, (c.isLower || c.isDigit) = true := by
  intro t ht c hc
  rcases splitAux_token_chars (normalize s) [] t c ht hc with h1 | h1
  · simp at h1
  · obtain ⟨hmem, hne⟩ := h1
    have h2 := mem_normalize s hmem
    rcases mem_collapseWsAux _ false c h2 with h3 | h3
    · exact absurd h3 hne
    · obtain ⟨hmemf, hnsp⟩ := h3
      rw [List.mem_filter] at hmemf
      obtain ⟨hmemm, hkeep⟩ := hmemf
      rw [List.mem_map] at hmemm
      obtain ⟨a, -, hla⟩ := hmemm
      have hup : c.isUpper = false := by rw [← hla]; exact toLower_not_isUpper a
      simp only [keepChar, jsWordChar, hnsp, Bool.or_false, Bool.and_eq_true,
        Bool.or_eq_true, Bool.not_eq_true', beq_eq_false_iff_ne, ne_eq,
        beq_iff_eq] at hkeep
      rcases hkeep with ⟨h4 | h4, h5⟩
      · rcases h4 with h4 | h4
        · rw [Char.isAlpha, hup, Bool.false_or] at h4
          simp [h4]
        · simp [h4]
      · exact absurd h4 h5

theorem scoreWords_eval (T S : List (List Char)) (h1 : S ≠ []) (h2 : S ≠ [[]]) :
    scoreWords T S =
      min 100 (round ((matchesCount T S : ℚ) / (T.length : ℚ) * 100)) := by
  unfold scoreWords calculatedScore
  rw [if_neg (not_or.mpr ⟨h1, h2⟩)]

theorem specScoreWords_eval (T S : List (List Char)) (h1 : S ≠ []) (h2 : S ≠ [[]]) :
    specScoreWords T S =
      min 100 (round (((specAlignRun S T 0).1 : ℚ) / (T.length : ℚ) * 100)) := by
  unfold specScoreWords
  rw [if_neg (not_or.mpr ⟨h1, h2⟩)]

theorem alignTrace_cursor_after (S : List (List Char)) :
    ∀ ts c, List.Pairwise (fun p q : Nat × Nat => p.2 < q.1) (alignTrace S ts c) := by
  intro ts
  induction ts with
  | nil => intro c; simp [alignTrace_nil]
  | cons t ts ih =>
    intro c
    cases hf : findInWindow t S c with
    | some i =>
      rw [alignTrace_cons_some ts hf]
      refine List.Pairwise.cons ?_ (ih (i + 1))
      intro q hq
      have := alignTrace_bounds S ts (i + 1) q hq
      simp only []
      omega
    | none =>
      rw [alignTrace_cons_none ts hf]
      exact ih c

theorem getLev_costed (a b : List Char) :
    CostedEdits (getLevenshteinDistance a b) a b := by
  rw [getLevenshteinDistance_eq_levRec]
  have h1 := costed_levRec (b.reverse.length + a.reverse.length) b.reverse a.reverse le_rfl
  have h2 := h1.revBoth
  rw [List.reverse_reverse, List.reverse_reverse] at h2
  exact h2.swapDir

theorem getLev_min (a b : List Char) (n : Nat) (h : CostedEdits n a b) :
    getLevenshteinDistance a b ≤ n := by
  rw [getLevenshteinDistance_eq_levRec]
  exact levRec_le_of_costed (h.swapDir.revBoth)

/-! ## The claims -/

/-- C1 (amended): the aligner scans the window once, left to right, testing
each candidate first for exact equality and then for edit distance within the
allowed threshold; the target is matched to the first candidate passing
either test, so exact matches take priority over fuzzy matches only at the
same candidate position, and an earlier fuzzy candidate is preferred to a
later exact one. -/
theorem c1_single_scan_exact_per_candidate (t : List Char) (S : List (List Char))
    (c i : Nat) :
    findInWindow t S c = some i ↔
      (c ≤ i ∧ i < min (c + 6) S.length ∧
        (S.getD i [] = t ∨ getLevenshteinDistance t (S.getD i []) ≤ allowedEdits t) ∧
        ∀ j, c ≤ j → j < i →
          ¬(S.getD j [] = t ∨ getLevenshteinDistance t (S.getD j []) ≤ allowedEdits t)) := by
  rw [findInWindow_some_iff]
  constructor
  · rintro ⟨h1, h2, h3, h4⟩
    refine ⟨h1, h2, (matchAt_iff _ _).mp h3, fun j hj1 hj2 hm => ?_⟩
    have hfalse := h4 j hj1 hj2
    rw [(matchAt_iff _ _).mpr hm] at hfalse
    exact absurd hfalse (by simp)
  · rintro ⟨h1, h2, h3, h4⟩
    refine ⟨h1, h2, (matchAt_iff _ _).mpr h3, fun j hj1 hj2 => ?_⟩
    rw [Bool.eq_false_iff]
    intro hm
    exact h4 j hj1 hj2 ((matchAt_iff _ _).mp hm)

/-- C1 witness: at a concrete window the characterization is discharged. -/
theorem c1_single_scan_witness :
    0 ≤ 0 ∧ 0 < min (0 + 6) ([['c','a','t'], ['c','a','r','t']] : List (List Char)).length ∧
      (([['c','a','t'], ['c','a','r','t']] : List (List Char)).getD 0 [] = ['c','a','r','t'] ∨
        getLevenshteinDistance ['c','a','r','t']
          (([['c','a','t'], ['c','a','r','t']] : List (List Char)).getD 0 []) ≤
          allowedEdits ['c','a','r','t']) ∧
      ∀ j, 0 ≤ j → j < 0 →
        ¬(([['c','a','t'], ['c','a','r','t']] : List (List Char)).getD j [] = ['c','a','r','t'] ∨
          getLevenshteinDistance ['c','a','r','t']
            (([['c','a','t'], ['c','a','r','t']] : List (List Char)).getD j []) ≤
            allowedEdits ['c','a','r','t']) :=
  (c1_single_scan_exact_per_candidate ['c','a','r','t'] [['c','a','t'], ['c','a','r','t']] 0 0).mp
    (by decide)

/-- C1 counterexample: with target cart and window [cat, cart], the exact
candidate cart sits at index 1, yet the aligner matches the fuzzy candidate
cat at index 0; the exact-first two-pass rule of the spec picks index 1
instead, and on the pair of targets [cart, cat] the two rules give different
scores (100 against 50). -/
theorem c1_counterexample :
    findInWindow ['c','a','r','t'] [['c','a','t'], ['c','a','r','t']] 0 = some 0 ∧
    ([['c','a','t'], ['c','a','r','t']] : List (List Char)).getD 0 [] ≠ ['c','a','r','t'] ∧
    ([['c','a','t'], ['c','a','r','t']] : List (List Char)).getD 1 [] = ['c','a','r','t'] ∧
    1 < min (0 + 6) ([['c','a','t'], ['c','a','r','t']] : List (List Char)).length ∧
    specFindInWindow ['c','a','r','t'] [['c','a','t'], ['c','a','r','t']] 0 = some 1 ∧
    scoreWords [['c','a','r','t'], ['c','a','t']] [['c','a','t'], ['c','a','r','t']] = 100 ∧
    specScoreWords [['c','a','r','t'], ['c','a','t']] [['c','a','t'], ['c','a','r','t']] = 50 := by
  refine ⟨by decide, by decide, by decide, by decide, by decide, ?_, ?_⟩
  · rw [scoreWords_eval _ _ (by decide) (by decide)]
    have hm : matchesCount [['c','a','r','t'], ['c','a','t']]
        [['c','a','t'], ['c','a','r','t']] = 2 := by decide
    rw [hm]
    norm_num
  · rw [specScoreWords_eval _ _ (by decide) (by decide)]
    have hm : (specAlignRun [['c','a','t'], ['c','a','r','t']]
        [['c','a','r','t'], ['c','a','t']] 0).1 = 1 := by decide
    rw [hm]
    norm_num

/-- C2: getLevenshteinDistance a b is the minimum number of single-character
insertions, deletions and substitutions transforming a into b, and it is
symmetric. -/
theorem c2_levenshtein_minimal_symmetric (a b : List Char) :
    CostedEdits (getLevenshteinDistance a b) a b ∧
    (∀ n, CostedEdits n a b → getLevenshteinDistance a b ≤ n) ∧
    getLevenshteinDistance a b = getLevenshteinDistance b a := by
  refine ⟨getLev_costed a b, fun n hn => getLev_min a b n hn, ?_⟩
  exact le_antisymm
    (getLev_min a b _ (getLev_costed b a).swapDir)
    (getLev_min b a _ (getLev_costed a b).swapDir)

/-- C2 witness: the distance from cat to cart is bounded by the explicit
one-step script inserting r, and the achieved script at that pair exists. -/
theorem c2_levenshtein_witness :
    getLevenshteinDistance ['c','a','t'] ['c','a','r','t'] ≤ 1 ∧
    CostedEdits (getLevenshteinDistance ['c','a','t'] ['c','a','r','t'])
      ['c','a','t'] ['c','a','r','t'] :=
  ⟨(c2_levenshtein_minimal_symmetric ['c','a','t'] ['c','a','r','t']).2.1 1
      (CostedEdits.step (EditStep.insert ['c','a'] ['t'] 'r')
        (CostedEdits.zero ['c','a','r','t'])),
    (c2_levenshtein_minimal_symmetric ['c','a','t'] ['c','a','r','t']).1⟩

/-- C3 (amended): every character of every token produced by normalization is
a lowercase letter or a digit (all punctuation, underscores, uppercase forms
and whitespace are gone); the normalized text carries no leading separator,
no trailing separator and no two adjacent separators; and the empty input
yields the one-element sequence holding the empty token, not an empty
sequence.  The function is a pure Lean definition, hence deterministic. -/
theorem c3_normalize_tokens (s : List Char) :
    (∀ t ∈ splitWords s, ∀ c ∈ t, (c.isLower || c.isDigit) = true) ∧
    (normalize s).head? ≠ some ' ' ∧
    (normalize s).getLast? ≠ some ' ' ∧
    List.Chain' (fun a c => a ≠ ' ' ∨ c ≠ ' ') (normalize s) ∧
    splitWords [] = [[]] := by
  refine ⟨splitWords_chars s, ?_, ?_, normalize_chain s, by decide⟩
  · intro h
    have hsp := normalize_head_not_space s ' ' h
    rw [jsSpaceChar_space] at hsp
    simp at hsp
  · intro h
    have hsp := normalize_getLast_not_space s ' ' h
    rw [jsSpaceChar_space] at hsp
    simp at hsp

/-- C3 witness: the token of a concrete input is made of good characters. -/
theorem c3_normalize_tokens_witness : ('a'.isLower || 'a'.isDigit) = true :=
  (c3_normalize_tokens [' ', 'A', '!', ' ']).1 ['a'] (by decide) 'a' (by decide)

/-- C3 counterexample: tokenizing the empty input yields a sequence of length
1 (holding the empty token), not a sequence of length 0 as the claim
states. -/
theorem c3_counterexample :
    splitWords [] = [[]] ∧ (splitWords []).length ≠ 0 := by
  refine ⟨by decide, by decide⟩

/-- C4 (amended): for a non-empty target sequence the result is an integer in
[0, 100]; whenever the spoken sequence is neither empty nor the single empty
token (so the no-speech guard does not fire), the result equals
round(matches / n times 100) clamped to at most 100. -/
theorem c4_score_formula (T S : List (List Char)) :
    (T ≠ [] → 0 ≤ scoreWords T S ∧ scoreWords T S ≤ 100) ∧
    (S ≠ [] → S ≠ [[]] →
      scoreWords T S =
        min 100 (round ((matchesCount T S : ℚ) / (T.length : ℚ) * 100))) := by
  constructor
  · intro _
    exact ⟨scoreWords_nonneg T S, scoreWords_le_100 T S⟩
  · intro h1 h2
    exact scoreWords_eval T S h1 h2

/-- C4 witness: both parts discharged at a concrete pair. -/
theorem c4_score_formula_witness :
    (0 ≤ scoreWords [['a']] [['a']] ∧ scoreWords [['a']] [['a']] ≤ 100) ∧
    scoreWords [['a']] [['a']] =
      min 100 (round ((matchesCount [['a']] [['a']] : ℚ) /
        (([['a']] : List (List Char)).length : ℚ) * 100)) :=
  ⟨(c4_score_formula [['a']] [['a']]).1 (by decide),
    (c4_score_formula [['a']] [['a']]).2 (by decide) (by decide)⟩

/-- C4 counterexample: at T = [a], S = [empty token] the guard returns 0,
while the greedy pass would match the empty token fuzzily (distance 1) and
the stated formula gives 100; so the formula does not describe the result for
every spoken sequence. -/
theorem c4_counterexample :
    scoreWords [['a']] [[]] = 0 ∧ matchesCount [['a']] [[]] = 1 ∧
    min 100 (calculatedScore [['a']] [[]]) = 100 := by
  refine ⟨?_, by decide, ?_⟩
  · unfold scoreWords
    rw [if_pos (Or.inr rfl)]
  · have hm : matchesCount [['a']] [[]] = 1 := by decide
    unfold calculatedScore
    rw [hm]
    norm_num

/-- C5: when the spoken sequence is empty or holds only the single empty
token, the scorer returns 0 from the guard, before the alignment loop. -/
theorem c5_no_speech_zero (T S : List (List Char)) (h : S = [] ∨ S = [[]]) :
    scoreWords T S = 0 := by
  unfold scoreWords
  rw [if_pos h]

/-- C5 witness. -/
theorem c5_no_speech_zero_witness : scoreWords [['a'], ['b']] [[]] = 0 :=
  c5_no_speech_zero [['a'], ['b']] [[]] (Or.inr rfl)

/-- C6: the fuzzy rule accepts s for t exactly when the edit distance is
within 2 for targets longer than 5 characters and within 1 otherwise; at the
boundaries, a length-5 target matches at distance 1 and not at distance 2,
and a length-7 target matches at distance 2 and not at distance 3. -/
theorem c6_fuzzy_threshold (t s : List Char) :
    (matchAt t s = true ↔
      getLevenshteinDistance t s ≤ (if 5 < t.length then 2 else 1)) ∧
    (t.length = 5 → getLevenshteinDistance t s = 1 → matchAt t s = true) ∧
    (t.length = 5 → getLevenshteinDistance t s = 2 → matchAt t s = false) ∧
    (t.length = 7 → getLevenshteinDistance t s = 2 → matchAt t s = true) ∧
    (t.length = 7 → getLevenshteinDistance t s = 3 → matchAt t s = false) := by
  have hae : allowedEdits t = if 5 < t.length then 2 else 1 := rfl
  have hiff : matchAt t s = true ↔
      getLevenshteinDistance t s ≤ (if 5 < t.length then 2 else 1) := by
    rw [matchAt_iff, ← hae]
    constructor
    · rintro (rfl | h)
      · rw [getLev_self]
        unfold allowedEdits
        split <;> omega
      · exact h
    · intro h
      exact Or.inr h
  refine ⟨hiff, ?_, ?_, ?_, ?_⟩
  · intro h1 h2
    rw [hiff, h1, h2]
    norm_num
  · intro h1 h2
    rw [Bool.eq_false_iff]
    intro hm
    have := hiff.mp hm
    rw [h1, h2] at this
    norm_num at this
  · intro h1 h2
    rw [hiff, h1, h2]
    norm_num
  · intro h1 h2
    rw [Bool.eq_false_iff]
    intro hm
    have := hiff.mp hm
    rw [h1, h2] at this
    norm_num at this

/-- C6 witness: the boundary examples of the spec, discharged concretely:
happy/hapy at distance 1 matches, happy/hap at distance 2 does not;
journey/jorny at distance 2 matches, and a length-7 target at distance 3
does not. -/
theorem c6_fuzzy_threshold_witness :
    matchAt ['h','a','p','p','y'] ['h','a','p','y'] = true ∧
    matchAt ['h','a','p','p','y'] ['h','a','p'] = false ∧
    matchAt ['j','o','u','r','n','e','y'] ['j','o','r','n','y'] = true ∧
    matchAt ['a','a','a','a','a','a','a'] ['a','a','a','a'] = false :=
  ⟨(c6_fuzzy_threshold ['h','a','p','p','y'] ['h','a','p','y']).2.1
      (by decide) (by decide),
    (c6_fuzzy_threshold ['h','a','p','p','y'] ['h','a','p']).2.2.1
      (by decide) (by decide),
    (c6_fuzzy_threshold ['j','o','u','r','n','e','y'] ['j','o','r','n','y']).2.2.2.1
      (by decide) (by decide),
    (c6_fuzzy_threshold ['a','a','a','a','a','a','a'] ['a','a','a','a']).2.2.2.2
      (by decide) (by decide)⟩

/-- C7: along a pass, the cursor after k+1 target words is at least the
cursor after k of them; each step adds at most one match; every match falls
at or after the cursor of its search; and the matched indices are consumed in
strictly increasing order, each strictly below every later search cursor, so
a spoken word below the cursor is never matched again. -/
theorem c7_cursor_invariants (T S : List (List Char)) (k : Nat) :
    ((alignRun S (T.take k) 0).2 ≤ (alignRun S (T.take (k + 1)) 0).2) ∧
    ((alignRun S (T.take (k + 1)) 0).1 ≤ (alignRun S (T.take k) 0).1 + 1) ∧
    (∀ pr ∈ alignTrace S T 0, pr.1 ≤ pr.2) ∧
    List.Pairwise (fun p q : Nat × Nat => p.2 < q.1) (alignTrace S T 0) ∧
    List.Pairwise (fun p q : Nat × Nat => p.2 < q.2) (alignTrace S T 0) := by
  have hstep : (alignRun S (T.take k) 0).2 ≤ (alignRun S (T.take (k + 1)) 0).2 ∧
      (alignRun S (T.take (k + 1)) 0).1 ≤ (alignRun S (T.take k) 0).1 + 1 := by
    rcases Nat.lt_or_ge k T.length with hk | hk
    · rw [List.take_succ, List.getElem?_eq_getElem hk]
      simp only [Option.toList_some]
      rw [alignRun_append]
      cases hf : findInWindow T[k] S (alignRun S (T.take k) 0).2 with
      | some i =>
        rw [alignRun_cons_some [] hf, alignRun_nil]
        have hi := (findInWindow_some_iff _ S _ i).mp hf
        constructor
        · show (alignRun S (T.take k) 0).2 ≤ i + 1
          omega
        · show (alignRun S (T.take k) 0).1 + (0 + 1) ≤ (alignRun S (T.take k) 0).1 + 1
          omega
      | none =>
        rw [alignRun_cons_none [] hf, alignRun_nil]
        exact ⟨le_rfl, by omega⟩
    · rw [List.take_of_length_le hk, List.take_of_length_le (by omega)]
      exact ⟨le_rfl, by omega⟩
  exact ⟨hstep.1, hstep.2,
    fun pr hpr => (alignTrace_bounds S T 0 pr hpr).2.1,
    alignTrace_cursor_after S T 0, alignTrace_sorted S T 0⟩

/-- C7 witness: the cursor step inequality discharged at a concrete run. -/
theorem c7_cursor_invariants_witness :
    (alignRun [['a']] (([['a']] : List (List Char)).take 0) 0).2 ≤
      (alignRun [['a']] (([['a']] : List (List Char)).take 1) 0).2 :=
  (c7_cursor_invariants [['a']] [['a']] 0).1

/-- C8 (amended/corrected): inserting one filler word, accepted by no target
word, at the position of one of the matches of the run, does not decrease the
score at all, provided the matched word sat at offset at most 4 from the
cursor of its search, so that after the insertion it is still inside the
6-word window; the number of matched target words is then unchanged. -/
theorem c8_filler_insert (T S : List (List Char)) (f : List Char) (cur p : Nat)
    (hf : ∀ t ∈ T, matchAt t f = false)
    (hmem : (cur, p) ∈ alignTrace S T 0)
    (hnear : p - cur ≤ 4) :
    matchesCount T (insertAt p f S) = matchesCount T S ∧
    scoreWords T S ≤ scoreWords T (insertAt p f S) := by
  have hb := alignTrace_bounds S T 0 (cur, p) hmem
  have hpS : p < S.length := by
    have := hb.2.2
    omega
  have hm := alignRun_insert_unmatched f S cur p T 0 hf hmem hnear
  refine ⟨hm, ?_⟩
  by_cases hS2 : S = [[]]
  · have h0 : scoreWords T S = 0 := by
      unfold scoreWords
      rw [if_pos (Or.inr hS2)]
    rw [h0]
    exact scoreWords_nonneg T _
  · have hS1 : S ≠ [] := by
      intro h
      rw [h] at hpS
      simp at hpS
    have hlen := length_insertAt f p S (le_of_lt hpS)
    have hS1' : insertAt p f S ≠ [] := by
      intro h
      rw [h] at hlen
      simp at hlen
    have hS2' : insertAt p f S ≠ [[]] := by
      intro h
      rw [h] at hlen
      simp only [List.length_cons, List.length_nil] at hlen
      exact hS1 (List.length_eq_zero.mp (by omega))
    rw [scoreWords_eval T S hS1 hS2, scoreWords_eval T _ hS1' hS2']
    have hm' : matchesCount T (insertAt p f S) = matchesCount T S := hm
    rw [hm']

/-- C8 witness: with one filler in front of a correctly spoken word the score
does not drop. -/
theorem c8_filler_insert_witness :
    matchesCount [['h','i']] (insertAt 0 ['q','q','q','q'] [['h','i']]) =
      matchesCount [['h','i']] [['h','i']] ∧
    scoreWords [['h','i']] [['h','i']] ≤
      scoreWords [['h','i']] (insertAt 0 ['q','q','q','q'] [['h','i']]) :=
  c8_filler_insert [['h','i']] [['h','i']] ['q','q','q','q'] 0 0
    (by decide) (by decide) (by decide)

/-- C8 counterexample: T = [apple, lemon], S has apple at the last window
slot (index 5) after five fillers; q matches no target, and the run matches
apple at (cursor 0, index 5) and lemon at (6, 6), so the inserted filler at
index 5 is inside the 6-word window of the search that matched apple; yet the
score falls from 100 to 0, far more than the 50 points of one missed match of
the two target words. -/
theorem c8_counterexample :
    (∀ t ∈ ([['a','p','p','l','e'], ['l','e','m','o','n']] : List (List Char)),
      matchAt t ['q'] = false) ∧
    alignTrace [['x'],['x'],['x'],['x'],['x'],['a','p','p','l','e'],['l','e','m','o','n']]
      [['a','p','p','l','e'], ['l','e','m','o','n']] 0 = [(0, 5), (6, 6)] ∧
    scoreWords [['a','p','p','l','e'], ['l','e','m','o','n']]
      [['x'],['x'],['x'],['x'],['x'],['a','p','p','l','e'],['l','e','m','o','n']] = 100 ∧
    scoreWords [['a','p','p','l','e'], ['l','e','m','o','n']]
      (insertAt 5 ['q']
        [['x'],['x'],['x'],['x'],['x'],['a','p','p','l','e'],['l','e','m','o','n']]) = 0 := by
  refine ⟨by decide, by decide, ?_, ?_⟩
  · rw [scoreWords_eval _ _ (by decide) (by decide)]
    have hm : matchesCount [['a','p','p','l','e'], ['l','e','m','o','n']]
        [['x'],['x'],['x'],['x'],['x'],['a','p','p','l','e'],['l','e','m','o','n']] = 2 := by
      decide
    rw [hm]
    norm_num
  · rw [scoreWords_eval _ _ (by decide) (by decide)]
    have hm : matchesCount [['a','p','p','l','e'], ['l','e','m','o','n']]
        (insertAt 5 ['q']
          [['x'],['x'],['x'],['x'],['x'],['a','p','p','l','e'],['l','e','m','o','n']]) = 0 := by
      decide
    rw [hm]
    norm_num

/-- C9: on the literal spec example the cursor walk matches one at index 0
and four at index 1, two and three find nothing in the window [1, 2), and
the score is exactly 50. -/
theorem c9_literal_example :
    scoreWords [['o','n','e'], ['t','w','o'], ['t','h','r','e','e'], ['f','o','u','r']]
      [['o','n','e'], ['f','o','u','r']] = 50 ∧
    alignTrace [['o','n','e'], ['f','o','u','r']]
      [['o','n','e'], ['t','w','o'], ['t','h','r','e','e'], ['f','o','u','r']] 0 =
      [(0, 0), (1, 1)] := by
  refine ⟨?_, by decide⟩
  rw [scoreWords_eval _ _ (by decide) (by decide)]
  have hm : matchesCount
      [['o','n','e'], ['t','w','o'], ['t','h','r','e','e'], ['f','o','u','r']]
      [['o','n','e'], ['f','o','u','r']] = 2 := by decide
  rw [hm]
  norm_num

/-- C10: when the no-speech guard does not fire, the global test record is
set to (1, 1) exactly when the fluency score reaches 70, and to (0, 1)
otherwise — a pass threshold of 70 percent the spec does not state. -/
theorem c10_pass_threshold (T S : List (List Char)) (h1 : S ≠ []) (h2 : S ≠ [[]]) :
    ((outcomeWords T S).2 = some (1, 1) ↔ 70 ≤ (outcomeWords T S).1) ∧
    ((outcomeWords T S).2 = some (0, 1) ↔ (outcomeWords T S).1 < 70) := by
  have houtcome : outcomeWords T S =
      (min 100 (calculatedScore T S),
        some (if calculatedScore T S ≥ 70 then 1 else 0, 1)) := by
    unfold outcomeWords
    rw [if_neg (not_or.mpr ⟨h1, h2⟩)]
  rw [houtcome]
  by_cases hc : (70:ℤ) ≤ calculatedScore T S
  · rw [if_pos hc]
    refine ⟨⟨fun _ => le_min (by norm_num) hc, fun _ => rfl⟩, ⟨fun h => ?_, fun h => ?_⟩⟩
    · exfalso
      have h' : some ((1:Nat), (1:Nat)) = some ((0:Nat), (1:Nat)) := h
      exact absurd h' (by decide)
    · exfalso
      have h' : min 100 (calculatedScore T S) < 70 := h
      have h'' := le_min (show (70:ℤ) ≤ 100 by norm_num) hc
      omega
  · rw [if_neg hc]
    push_neg at hc
    refine ⟨⟨fun h => ?_, fun h => ?_⟩, ⟨fun _ => ?_, fun _ => rfl⟩⟩
    · exfalso
      have h' : some ((0:Nat), (1:Nat)) = some ((1:Nat), (1:Nat)) := h
      exact absurd h' (by decide)
    · exfalso
      have h' : (70:ℤ) ≤ min 100 (calculatedScore T S) := h
      have h'' := min_le_right (100:ℤ) (calculatedScore T S)
      omega
    · show min 100 (calculatedScore T S) < 70
      have h'' := min_le_right (100:ℤ) (calculatedScore T S)
      omega

/-- C10 witness: a perfect concrete run sets the record to (1, 1). -/
theorem c10_pass_threshold_witness :
    (outcomeWords [['a']] [['a']]).2 = some (1, 1) := by
  have h := c10_pass_threshold [['a']] [['a']] (by decide) (by decide)
  apply h.1.mpr
  have houtcome : (outcomeWords [['a']] [['a']]).1 =
      min 100 (calculatedScore [['a']] [['a']]) := by
    unfold outcomeWords
    rw [if_neg (not_or.mpr ⟨by decide, by decide⟩)]
  rw [houtcome]
  have hm : matchesCount [['a']] [['a']] = 1 := by decide
  unfold calculatedScore
  rw [hm]
  norm_num

end Superlearner
